import Mathlib

/-!
Verification development for the GeoStrategy Engine terrain pipeline
(tools/process_terrain.py).  The pipeline stages are shallowly embedded:
2-D rasters become functions `Int → Int → Int` (or `Nat → Nat → Nat` for the
unsigned stages) together with explicit height/width parameters; the
float32/float64 arithmetic of the smoothing, normalization and overview
stages is modelled by exact rational arithmetic (`ℚ`), and NumPy's
`astype` casts become explicit truncation-toward-zero functions.
-/

/-- Truncation toward zero of a rational, the behaviour of NumPy's
`astype` from a float type to an integer type for in-range values. -/
def truncQ (q : ℚ) : Int := if 0 ≤ q then ⌊q⌋ else ⌈q⌉

/-- Truncation toward zero of `a / n` on integers: the value of Python's
`int(x)` applied to the exact rational quotient `a / n`.  For the void-fill
neighbour lists (at most 8 elements, int16 magnitudes) the float64 value of
`np.mean` truncates to exactly this integer. -/
def intTruncDiv (a : Int) (n : Nat) : Int :=
  if 0 ≤ a then ((a.toNat / n : Nat) : Int) else -(((-a).toNat / n : Nat) : Int)

/-- `int(np.mean(neighbors))` from `_simple_void_fill` (line 496). -/
def pyMeanInt (l : List Int) : Int := intTruncDiv l.sum l.length

/-- Point update of a grid, the effect of `g[y, x] = v`. -/
def update2 {α : Type} (g : Int → Int → α) (y x : Int) (v : α) : Int → Int → α :=
  fun a b => if a = y ∧ b = x then v else g a b

/-- All in-range coordinates of an `h × w` grid in row-major order, the
order in which `np.argwhere` lists them. -/
def allCoords (h w : Int) : List (Int × Int) :=
  (List.range h.toNat).flatMap fun y => (List.range w.toNat).map fun x => ((y : Int), (x : Int))

/-- SRTM nodata sentinel (process_terrain.py line 40). -/
def SRTM_NODATA : Int := -32768

/-- `void_mask = (data == SRTM_NODATA)` (line 445). -/
def voidMaskOf (data : Int → Int → Int) : Int → Int → Bool :=
  fun y x => decide (data y x = SRTM_NODATA)

/-- The state carried through one iteration of `_simple_void_fill`:
`filled` is the previous iteration's buffer (read for neighbour values),
`newFilled` is the buffer being written (`new_filled`), and `remaining`
is `remaining_voids`, which the scan mutates in place. -/
structure FillState where
  filled : Int → Int → Int
  newFilled : Int → Int → Int
  remaining : Int → Int → Bool

/-- Neighbour offsets in the order scanned at lines 486-492 (the centre
`(0,0)` is skipped). -/
def nbrOffsets : List (Int × Int) :=
  [(-1, -1), (-1, 0), (-1, 1), (0, -1), (0, 1), (1, -1), (1, 0), (1, 1)]

/-- The neighbour values collected at lines 485-492: values are read from
the previous iteration's buffer `filled`, but voidness is tested against
the in-place mutated `remaining_voids`. -/
def collectNbrs (h w : Int) (filled : Int → Int → Int) (remaining : Int → Int → Bool)
    (y x : Int) : List Int :=
  nbrOffsets.filterMap fun d =>
    let ny := y + d.1
    let nx := x + d.2
    if 0 ≤ ny ∧ ny < h ∧ 0 ≤ nx ∧ nx < w ∧ remaining ny nx = false then
      some (filled ny nx)
    else none

/-- Processing of one coordinate of `void_coords` (lines 483-497).  The
guard on `st.remaining` makes a scan over all coordinates equivalent to a
scan over `np.argwhere(remaining_voids)`: a coordinate's `remaining` entry
is mutated only when that coordinate itself is processed, so at each
coordinate the guard coincides with membership in the argwhere snapshot. -/
def fillStep (h w : Int) (st : FillState) (p : Int × Int) : FillState :=
  if st.remaining p.1 p.2 then
    let nbrs := collectNbrs h w st.filled st.remaining p.1 p.2
    if nbrs.isEmpty then st
    else
      { filled := st.filled
        newFilled := update2 st.newFilled p.1 p.2 (pyMeanInt nbrs)
        remaining := update2 st.remaining p.1 p.2 false }
  else st

/-- One iteration of the fill loop (lines 472-499): `new_filled` starts as
a copy of `filled`, then the void coordinates are scanned row-major. -/
def fillIter (h w : Int) (filled : Int → Int → Int) (remaining : Int → Int → Bool) :
    FillState :=
  (allCoords h w).foldl (fillStep h w) ⟨filled, filled, remaining⟩

/-- `np.any(remaining_voids)` (line 473). -/
def anyRemaining (h w : Int) (remaining : Int → Int → Bool) : Bool :=
  (allCoords h w).any fun p => remaining p.1 p.2

/-- The iteration loop of `_simple_void_fill` with its cap (lines 471-499):
break when no voids remain, else run one scan and continue with
`filled = new_filled`. -/
def fillLoop (h w : Int) : Nat → (Int → Int → Int) → (Int → Int → Bool) →
    (Int → Int → Int) × (Int → Int → Bool)
  | 0, f, r => (f, r)
  | Nat.succ n, f, r =>
    if anyRemaining h w r then
      let st := fillIter h w f r
      fillLoop h w n st.newFilled st.remaining
    else (f, r)

/-- `_simple_void_fill` (lines 465-505), `max_iterations = 100`. -/
def simpleVoidFill (h w : Int) (data : Int → Int → Int) (mask : Int → Int → Bool) :
    Int → Int → Int :=
  (fillLoop h w 100 data mask).1

/-- The 3×3 Gaussian kernel weight at offset `(dy, dx)` (lines 510-512):
`[[1,2,1],[2,4,2],[1,2,1]] / 16`. -/
def kernelW (dy dx : Int) : ℚ :=
  ((if dy = 0 then 2 else 1) * (if dx = 0 then 2 else 1) : ℚ) / 16

/-- The 3×3 kernel offsets in scan order (lines 525-526). -/
def kernelOffsets : List (Int × Int) :=
  [(-1, -1), (-1, 0), (-1, 1), (0, -1), (0, 0), (0, 1), (1, -1), (1, 0), (1, 1)]

/-- One term of the weighted-average accumulation at lines 525-531:
`result` and `weight_sum` gain the contribution of the in-bounds offset
`d`. -/
def smoothAccStep (h w : Int) (g : Int → Int → ℚ) (y x : Int) (acc : ℚ × ℚ)
    (d : Int × Int) : ℚ × ℚ :=
  let ny := y + d.1
  let nx := x + d.2
  if 0 ≤ ny ∧ ny < h ∧ 0 ≤ nx ∧ nx < w then
    (acc.1 + g ny nx * kernelW d.1 d.2, acc.2 + kernelW d.1 d.2)
  else acc

/-- The weighted-average accumulation at lines 521-531: returns the pair
`(result, weight_sum)` over the in-bounds part of the 3×3 neighbourhood. -/
def smoothAcc (h w : Int) (g : Int → Int → ℚ) (y x : Int) : ℚ × ℚ :=
  kernelOffsets.foldl (smoothAccStep h w g y x) (0, 0)

/-- The smoothed value written at lines 533-534 (`result / weight_sum`
when the weight sum is positive, else the pixel keeps its value). -/
def smoothAt (h w : Int) (g : Int → Int → ℚ) (y x : Int) : ℚ :=
  let acc := smoothAcc h w g y x
  if 0 < acc.2 then acc.1 / acc.2 else g y x

/-- Processing of one coordinate of `np.argwhere(void_mask)` in
`_smooth_filled_regions`; the buffer is updated in place, so later pixels
read already-smoothed values.  The guard on the (never mutated) original
void mask makes a scan over all coordinates equivalent to the argwhere
scan. -/
def smoothStepQ (h w : Int) (mask : Int → Int → Bool) (g : Int → Int → ℚ)
    (p : Int × Int) : Int → Int → ℚ :=
  if mask p.1 p.2 then update2 g p.1 p.2 (smoothAt h w g p.1 p.2) else g

/-- `_smooth_filled_regions` (lines 507-536): float32 buffer modelled in
exact rationals, final `astype(np.int16)` modelled by truncation toward
zero (exact for the in-range values produced here). -/
def smoothFilledRegions (h w : Int) (data : Int → Int → Int) (mask : Int → Int → Bool) :
    Int → Int → Int :=
  let g := (allCoords h w).foldl (smoothStepQ h w mask) (fun y x => ((data y x : Int) : ℚ))
  fun y x => truncQ (g y x)

/-- `num_voids = np.sum(void_mask)` (line 446). -/
def countVoids (h w : Int) (mask : Int → Int → Bool) : Nat :=
  ((allCoords h w).filter fun p => mask p.1 p.2).length

/-- `_fill_voids` (lines 443-463).  Returns the output buffer together
with the single statistic the function reports: it prints
`[OK] Filled {num_voids} void pixels` and stores
`stats['voids_filled'] = num_voids`, where `num_voids` is the count of
voids found *before* filling; no residual count is computed. -/
def fillVoidsRun (h w : Int) (data : Int → Int → Int) : (Int → Int → Int) × Nat :=
  let mask := voidMaskOf data
  let n := countVoids h w mask
  if n = 0 then (data, 0)
  else (smoothFilledRegions h w (simpleVoidFill h w data mask) mask, n)

/-- The 1×3 failing input for claim C1: one valid pixel of value 100
followed by two void pixels. -/
def c1Row : Int → Int → Int :=
  fun y x => if y = 0 ∧ x = 0 then 100 else SRTM_NODATA

/-- The 1×1 all-void failing input for claim C3. -/
def c3Cell : Int → Int → Int := fun _ _ => SRTM_NODATA

/-- Sea-level code reserved in the uint16 domain (line 44). -/
def SEA_LEVEL_UINT16 : Int := 1000

/-- `_normalize` (lines 538-552), per sample: clamp below 0 to 0, scale by
`(65535 - 1000) / max_elevation_m`, add the sea-level code, clip to
`[0, 65535]`, then `astype(np.uint16)` — which truncates, it does not
round.  The float32 arithmetic is modelled exactly in `ℚ`. -/
def normalizeSample (maxElevationM : ℚ) (e : Int) : Int :=
  let d : Int := max e 0
  let scale : ℚ := (65535 - 1000) / maxElevationM
  let x : ℚ := (d : ℚ) * scale + 1000
  truncQ (min (max x 0) 65535)

/-- Round to nearest integer, halves away from zero for positive input;
at the inputs where the spec is compared with the code the fractional part
is never 1/2, so any rounding convention agrees with this one. -/
def roundNearest (q : ℚ) : Int := ⌊q + 1 / 2⌋

/-- Modelled from the spec's words (§4.3): the Normalizer maps each sample
to `round(elevation_m * scale + sea_level_code)` clipped to `[0, 65535]`,
with `scale = (65535 - sea_level_code) / max_elevation_m`, after clamping
negative elevation to 0.  This is the claim's formula, to be compared with
`normalizeSample` taken from the source. -/
def normalizeSampleSpec (maxElevationM : ℚ) (e : Int) : Int :=
  let d : Int := max e 0
  let scale : ℚ := (65535 - 1000) / maxElevationM
  min (max (roundNearest ((d : ℚ) * scale + 1000)) 0) 65535

/-- Output side length of `_downsample` along one axis (lines 630-636):
an odd dimension is padded by one replicated line before halving. -/
def dsDim (d : Nat) : Nat := (d + d % 2) / 2

/-- `_downsample` (lines 626-641): replicate the last row if the height is
odd and the last column if the width is odd, then average non-overlapping
2×2 blocks.  The float64 block mean followed by `astype` to the uint16
element type is exactly floor division of the block sum by 4. -/
def downsample (h w : Nat) (g : Nat → Nat → Nat) : Nat → Nat → Nat :=
  let g1 : Nat → Nat → Nat := fun y x => if y < h then g y x else g (h - 1) x
  let g2 : Nat → Nat → Nat := fun y x => if x < w then g1 y x else g1 y (w - 1)
  fun i j =>
    (g2 (2 * i) (2 * j) + g2 (2 * i) (2 * j + 1) +
      g2 (2 * i + 1) (2 * j) + g2 (2 * i + 1) (2 * j + 1)) / 4

/-- Buffer-wide arithmetic mean of an `h × w` grid, as an exact rational:
the quantity the spec's LOD mean-preservation property is about. -/
def meanQ (h w : Nat) (g : Nat → Nat → Nat) : ℚ :=
  (∑ i ∈ Finset.range h, ∑ j ∈ Finset.range w, (g i j : ℚ)) / ((h : ℚ) * w)

/-- The 3×2 buffer witnessing that replication padding can move the mean:
two zero rows and one all-65535 row. -/
def c7Grid : Nat → Nat → Nat := fun y _ => if y = 2 then 65535 else 0

/-- Chunk side length (line 41). -/
def CHUNK_SIZE_PX : Nat := 512

/-- Chunks per axis, `(d + CHUNK_SIZE_PX - 1) // CHUNK_SIZE_PX`
(lines 592-593). -/
def numChunksAxis (d : Nat) : Nat := (d + CHUNK_SIZE_PX - 1) / CHUNK_SIZE_PX

/-- The pixel content of the chunk at grid position `(chunk_x, chunk_y) =
(cx, cy)` of `_chunk_lod` (lines 595-609): the clipped window starting at
`(512·cy, 512·cx)`, zero-padded to 512×512 at the bottom/right edges. -/
def chunkData (h w : Nat) (g : Nat → Nat → Nat) (cy cx : Nat) : Nat → Nat → Nat :=
  fun u v =>
    let ys := cy * CHUNK_SIZE_PX
    let ye := min (ys + CHUNK_SIZE_PX) h
    let xs := cx * CHUNK_SIZE_PX
    let xe := min (xs + CHUNK_SIZE_PX) w
    if u < ye - ys ∧ v < xe - xs then g (ys + u) (xs + v) else 0

/-- The `(x, y)` grid coordinates of the chunk records emitted by
`_chunk_lod` (lines 595-622), `chunk_y` outer and `chunk_x` inner. -/
def chunkRecords (h w : Nat) : List (Nat × Nat) :=
  (List.range (numChunksAxis h)).flatMap fun cy =>
    (List.range (numChunksAxis w)).map fun cx => (cx, cy)

/-- Pixels per degree of the two resolution modes (lines 392 and 398). -/
def pxPerDegree (down : Bool) : Int := if down then 1200 else 3600

/-- Placed tile content: an absent tile contributes an all-zero block
(lines 413-421); in decimated mode a present tile is first stride-3
decimated (`tile_data[::3, ::3]`, line 416). -/
def tileValue (down : Bool) (t : Option (Int → Int → Int)) : Int → Int → Int :=
  match t with
  | none => fun _ _ => 0
  | some f => if down then fun u v => f (3 * u) (3 * v) else f

/-- Placement of one tile into the mosaic (lines 423-438): offsets
`y_offset = (lat_max - (lat+1)) * px_per_degree`,
`x_offset = (lon - lon_min) * px_per_degree`, region clipped to the output
bounds, pixels outside the clipped region left unchanged. -/
def placeTile (hpx wpx ppd td latMax lonMin : Int) (down : Bool)
    (m : Int → Int → Int) (tl : Int × Int × Option (Int → Int → Int)) : Int → Int → Int :=
  let yo := (latMax - (tl.1 + 1)) * ppd
  let xo := (tl.2.1 - lonMin) * ppd
  fun y x =>
    if max 0 yo ≤ y ∧ y < min hpx (yo + td) ∧ max 0 xo ≤ x ∧ x < min wpx (xo + td) then
      tileValue down tl.2.2 (y - yo) (x - xo)
    else m y x

/-- The clipped placement region of the tile at `(lat, lon)`: the pixels
its contribution covers. -/
def coversPx (hpx wpx ppd td latMax lonMin : Int) (lat lon y x : Int) : Prop :=
  max 0 ((latMax - (lat + 1)) * ppd) ≤ y ∧
  y < min hpx ((latMax - (lat + 1)) * ppd + td) ∧
  max 0 ((lon - lonMin) * ppd) ≤ x ∧
  x < min wpx ((lon - lonMin) * ppd + td)

/-- `_merge_tiles` (lines 381-441) and the streaming variant
`_download_and_merge_srtm3` (lines 256-307), which performs the same
arithmetic one tile at a time: output `(span · px_per_degree)` pixels per
axis, zero-initialised, tiles placed in scan order (last write wins on the
shared one-pixel borders).  Restricted to whole-degree bounding boxes, as
in the claim. -/
def mergeTiles (latMin latMax lonMin lonMax : Int) (down : Bool)
    (tiles : List (Int × Int × Option (Int → Int → Int))) : Int → Int → Int :=
  let ppd := pxPerDegree down
  tiles.foldl
    (placeTile ((latMax - latMin) * ppd) ((lonMax - lonMin) * ppd) ppd (ppd + 1) latMax lonMin
      down)
    (fun _ _ => 0)

/-- Water color for the overview (line 47). -/
def COLOR_WATER_OVERVIEW : Int × Int × Int := (38, 64, 115)

/-- Fallback lowland green used when no palette is available (line 691). -/
def COLOR_FALLBACK_LAND : Int × Int × Int := (46, 82, 31)

/-- The uint16-to-meters conversion of `_generate_overview_texture`
(lines 667-668): `(v - 1000) / (65535 - 1000) * max_elevation_m`, clipped
to `[0, max_elevation_m]`. -/
def elevMOf (maxElevationM : ℚ) (v : Int) : ℚ :=
  min (max (((v : ℚ) - 1000) / (65535 - 1000) * maxElevationM) 0) maxElevationM

/-- `np.round`: round half to even. -/
def npRoundHalfEven (q : ℚ) : Int :=
  let n := ⌊q⌋
  let fr := q - n
  if fr < 1 / 2 then n else if 1 / 2 < fr then n + 1 else if Even n then n else n + 1

/-- Clip to the uint8 range, `np.clip(·, 0, 255)` (line 83). -/
def clip8 (v : Int) : Int := min (max v 0) 255

/-- `sample_elevation_color` (lines 73-83): palette lookup with linear
interpolation at `t = clamp(e / max_elev, 0, 1)`. -/
def sampleElevationColor (pal : List (ℚ × ℚ × ℚ)) (maxElev : ℚ) (e : ℚ) : Int × Int × Int :=
  let t : ℚ := min (max (e / maxElev) 0) 1
  let n : Nat := pal.length
  let idxF : ℚ := t * ((n : ℚ) - 1)
  let i0 : Int := min (max ⌊idxF⌋ 0) ((n : Int) - 1)
  let i1 : Int := min (i0 + 1) ((n : Int) - 1)
  let fr : ℚ := idxF - ⌊idxF⌋
  let p0 := pal.getD i0.toNat (0, 0, 0)
  let p1 := pal.getD i1.toNat (0, 0, 0)
  (clip8 (npRoundHalfEven (((1 - fr) * p0.1 + fr * p1.1) * 255)),
   clip8 (npRoundHalfEven (((1 - fr) * p0.2.1 + fr * p1.2.1) * 255)),
   clip8 (npRoundHalfEven (((1 - fr) * p0.2.2 + fr * p1.2.2) * 255)))

/-- The colouring decision of `_generate_overview_texture` (lines 676-691)
on the stride-sampled elevation grid, together with the warning flag:
pixels below the 5 m water threshold get the constant water color; land
pixels are coloured from the palette when one is present and any land
exists, otherwise by the constant fallback green, with the warning printed
exactly when the palette is missing. -/
def overviewColors (oh ow : Int) (maxElevationM : ℚ) (pal : Option (List (ℚ × ℚ × ℚ)))
    (master : Int → Int → Int) : (Int → Int → Int × Int × Int) × Bool :=
  let elev := fun y x => elevMOf maxElevationM (master y x)
  let anyLand := (allCoords oh ow).any fun p => decide (¬ elev p.1 p.2 < 5)
  match pal, anyLand with
  | some p, true =>
    (fun y x =>
      if elev y x < 5 then COLOR_WATER_OVERVIEW
      else sampleElevationColor p maxElevationM (elev y x), false)
  | some _, false =>
    (fun y x => if elev y x < 5 then COLOR_WATER_OVERVIEW else COLOR_FALLBACK_LAND, false)
  | none, _ =>
    (fun y x => if elev y x < 5 then COLOR_WATER_OVERVIEW else COLOR_FALLBACK_LAND, true)

/-- In-range coordinates of an `h × w` grid. -/
def inGrid (h w y x : Int) : Prop := 0 ≤ y ∧ y < h ∧ 0 ≤ x ∧ x < w

/-- Membership in the 3×3 block whose north-west corner is `(r, c)`. -/
def inBlock (r c y x : Int) : Prop := r ≤ y ∧ y < r + 3 ∧ c ≤ x ∧ x < c + 3

/-- A 5×5 buffer whose nodata pixels form the interior 3×3 block at
rows/columns 1-3. -/
def c2Grid : Int → Int → Int :=
  fun y x => if 1 ≤ y ∧ y < 4 ∧ 1 ≤ x ∧ x < 4 then SRTM_NODATA else 0

/-- Proof scaffolding for the isolated-block theorem: invariant carried
through one scan of `_simple_void_fill`. -/
def FillInv (h w r c : Int) (f : Int → Int → Int) (st : FillState) : Prop :=
  (∀ y x, inGrid h w y x → -32768 ≤ st.filled y x) ∧
  (∀ y x, inGrid h w y x → -32768 ≤ st.newFilled y x) ∧
  (∀ y x, inGrid h w y x → ¬ inBlock r c y x →
    st.filled y x = f y x ∧ st.newFilled y x = f y x ∧ st.remaining y x = false) ∧
  (st.remaining r c = true ∨ -32767 ≤ st.newFilled r c)

/-- Proof scaffolding: invariant between iterations of the fill loop. -/
def LoopInv (h w r c : Int) (f : Int → Int → Int) (F : Int → Int → Int)
    (R : Int → Int → Bool) : Prop :=
  (∀ y x, inGrid h w y x → -32768 ≤ F y x) ∧
  (∀ y x, inGrid h w y x → ¬ inBlock r c y x → F y x = f y x ∧ R y x = false) ∧
  (R r c = true ∨ -32767 ≤ F r c)

/-- Proof scaffolding: invariant for the in-place smoothing scan. -/
def SmoothInv (h w r c : Int) (f : Int → Int → Int) (g : Int → Int → ℚ) : Prop :=
  (∀ y x, inGrid h w y x → (-32768 : ℚ) ≤ g y x) ∧
  (∀ y x, inGrid h w y x → ¬ inBlock r c y x → g y x = ((f y x : Int) : ℚ)) ∧
  (-32768 : ℚ) < g r c

/-!  Theorems.  -/

theorem truncQ_intCast (n : ℤ) : truncQ (n : ℚ) = n := by
  unfold truncQ; split <;> simp

theorem truncQ_int_val {q : ℚ} {z : ℤ} (h : q = (z : ℚ)) : truncQ q = z := by
  rw [h, truncQ_intCast]

theorem truncQ_of_nonneg {q : ℚ} (h : 0 ≤ q) : truncQ q = ⌊q⌋ := by
  unfold truncQ; exact if_pos h

/-- C1: the claim says that in every iteration each currently-void pixel
with at least one not-currently-void neighbour is set to the mean of those
neighbours' values.  On the 1×3 buffer `[100, void, void]` the pixel
`(0,2)` has no non-void neighbour at the start of iteration 1, so under the
claim it would stay void and be filled with 100 in iteration 2.  The code
instead unmarks `(0,1)` mid-scan and then averages its *stale* sentinel
value from the previous buffer, leaving `(0,2) = -32768` permanently while
`(0,1) = 100`. -/
theorem simple_void_fill_stale_sentinel :
    simpleVoidFill 1 3 c1Row (voidMaskOf c1Row) 0 1 = 100 ∧
    simpleVoidFill 1 3 c1Row (voidMaskOf c1Row) 0 2 = SRTM_NODATA := by
  constructor <;> rfl

/-- C3: on a 1×1 buffer consisting of a single void pixel, no iteration
can ever fill anything (there are no neighbours), so the pixel is still
the sentinel after the full run — yet `_fill_voids` reports
`voids_filled = 1` (the initial count) and computes no residual count at
all: the statistics do not distinguish filled from unresolved voids. -/
theorem fill_voids_misreports_residuals :
    (fillVoidsRun 1 1 c3Cell).2 = 1 ∧ (fillVoidsRun 1 1 c3Cell).1 0 0 = SRTM_NODATA := by
  have hn : countVoids 1 1 (voidMaskOf c3Cell) = 1 := by decide
  have hco : allCoords 1 1 = [(0, 0)] := by decide
  have hrun : fillVoidsRun 1 1 c3Cell =
      (smoothFilledRegions 1 1 (simpleVoidFill 1 1 c3Cell (voidMaskOf c3Cell))
        (voidMaskOf c3Cell), 1) := by
    simp only [fillVoidsRun, hn]
    norm_num
  refine ⟨by rw [hrun], ?_⟩
  rw [hrun]
  have hfill : simpleVoidFill 1 1 c3Cell (voidMaskOf c3Cell) 0 0 = SRTM_NODATA := by decide
  have hmask : voidMaskOf c3Cell 0 0 = true := by decide
  simp only [smoothFilledRegions, hco, List.foldl_cons, List.foldl_nil, smoothStepQ, hmask,
    if_true, update2, smoothAt, smoothAcc, smoothAccStep, kernelOffsets, kernelW]
  norm_num [hfill, SRTM_NODATA]
  exact truncQ_int_val (by push_cast; ring)

theorem floorQ_numeral_65535 : ⌊(65535 : ℚ)⌋ = 65535 := by
  have h : (65535 : ℚ) = ((65535 : ℤ) : ℚ) := by norm_num
  rw [h, Int.floor_intCast]

/-- Shared helper: the Normalizer equals "clamp, scale, add sea level,
floor, clip" — the float-then-`astype(uint16)` pipeline truncates. -/
theorem normalizeSample_eq_clip_floor (M : ℚ) (hM : 0 < M) (e : Int) :
    normalizeSample M e =
      min (max ⌊((max e 0 : Int) : ℚ) * ((65535 - 1000) / M) + 1000⌋ 0) 65535 := by
  simp only [normalizeSample]
  set x : ℚ := ((max e 0 : Int) : ℚ) * ((65535 - 1000) / M) + 1000 with hxdef
  have hd0 : (0 : ℚ) ≤ ((max e 0 : Int) : ℚ) := by
    exact_mod_cast le_max_right e 0
  have hscale : (0 : ℚ) ≤ (65535 - 1000) / M := by positivity
  have hx : (1000 : ℚ) ≤ x := by
    have := mul_nonneg hd0 hscale
    rw [hxdef]; linarith
  rw [max_eq_left (by linarith : (0 : ℚ) ≤ x)]
  by_cases hc : x ≤ 65535
  · rw [min_eq_left hc, truncQ_of_nonneg (by linarith)]
    have h1 : (1000 : ℤ) ≤ ⌊x⌋ := Int.le_floor.mpr (by exact_mod_cast hx)
    have h2 : ⌊x⌋ ≤ 65535 := by
      have h3 := Int.floor_le_floor hc
      rwa [floorQ_numeral_65535] at h3
    rw [max_eq_left (by omega), min_eq_left h2]
  · push_neg at hc
    rw [min_eq_right (le_of_lt hc), truncQ_int_val (by norm_num : (65535 : ℚ) = ((65535 : ℤ) : ℚ))]
    have h1 : (65535 : ℤ) ≤ ⌊x⌋ := Int.le_floor.mpr (by exact_mod_cast le_of_lt hc)
    rw [max_eq_left (by omega), min_eq_right h1]

/-- C5 counterexample: with `max_elevation_m = 258140` the scale is
exactly 1/4, so elevation 3 m maps to the exact float value 1000.75; the
code truncates it to 1000, while the claim's `round` formula gives 1001. -/
theorem normalize_round_counterexample :
    normalizeSample 258140 3 = 1000 ∧ normalizeSampleSpec 258140 3 = 1001 := by
  constructor
  · have h := normalizeSample_eq_clip_floor 258140 (by norm_num) 3
    rw [h]
    have h1 : ((max (3 : Int) 0 : Int) : ℚ) * ((65535 - 1000) / 258140) + 1000 = 4003 / 4 := by
      norm_num
    rw [h1]
    have h2 : ⌊(4003 / 4 : ℚ)⌋ = 1000 := by
      rw [Int.floor_eq_iff]
      norm_num
    rw [h2]
    decide
  · simp only [normalizeSampleSpec, roundNearest]
    have h1 : ((max (3 : Int) 0 : Int) : ℚ) * ((65535 - 1000) / 258140) + 1000 + 1 / 2
        = 4005 / 4 := by norm_num
    rw [h1]
    have h2 : ⌊(4005 / 4 : ℚ)⌋ = 1001 := by
      rw [Int.floor_eq_iff]
      norm_num
    rw [h2]
    decide

/-- C5 amended: the Normalizer clamps below 0 to 0 and then maps each
sample to `floor(elevation_m * scale + sea_level_code)` (truncation, not
rounding) clipped to `[0, 65535]`, with
`scale = (65535 - sea_level_code) / max_elevation_m` and
`sea_level_code = 1000`. -/
theorem normalize_amended_floor (M : ℚ) (hM : 0 < M) (e : Int) :
    normalizeSample M e =
      min (max ⌊((max e 0 : Int) : ℚ) * ((65535 - 1000) / M) + 1000⌋ 0) 65535 :=
  normalizeSample_eq_clip_floor M hM e

theorem normalize_amended_floor_witness :
    (0 : ℚ) < 4810 ∧
    normalizeSample 4810 25 =
      min (max ⌊((max (25 : Int) 0 : Int) : ℚ) * ((65535 - 1000) / 4810) + 1000⌋ 0) 65535 :=
  ⟨by norm_num, normalize_amended_floor 4810 (by norm_num) 25⟩

/-- C10: for positive `max_elevation_m` every output of the Normalizer
lies in `[1000, 65535]`, and elevation 0 maps exactly to the reserved
sea-level code 1000 — the band `[0, 1000)` is never occupied. -/
theorem normalize_reserved_band (M : ℚ) (hM : 0 < M) :
    (∀ e : Int, 1000 ≤ normalizeSample M e ∧ normalizeSample M e ≤ 65535) ∧
    normalizeSample M 0 = 1000 := by
  have key : ∀ e : Int, normalizeSample M e =
      min (max ⌊((max e 0 : Int) : ℚ) * ((65535 - 1000) / M) + 1000⌋ 0) 65535 :=
    fun e => normalizeSample_eq_clip_floor M hM e
  constructor
  · intro e
    rw [key e]
    have hd0 : (0 : ℚ) ≤ ((max e 0 : Int) : ℚ) := by exact_mod_cast le_max_right e 0
    have hscale : (0 : ℚ) ≤ (65535 - 1000) / M := by positivity
    have hx : (1000 : ℚ) ≤ ((max e 0 : Int) : ℚ) * ((65535 - 1000) / M) + 1000 := by
      have := mul_nonneg hd0 hscale
      linarith
    have h1 : (1000 : ℤ) ≤ ⌊((max e 0 : Int) : ℚ) * ((65535 - 1000) / M) + 1000⌋ :=
      Int.le_floor.mpr (by exact_mod_cast hx)
    constructor
    · exact le_min (by omega) (by norm_num)
    · exact min_le_right _ _
  · rw [key 0]
    have h0 : ((max (0 : Int) 0 : Int) : ℚ) * ((65535 - 1000) / M) + 1000 = 1000 := by
      norm_num
    rw [h0]
    have h2 : ⌊(1000 : ℚ)⌋ = 1000 := by
      rw [show (1000 : ℚ) = ((1000 : ℤ) : ℚ) by norm_num, Int.floor_intCast]
    rw [h2]
    decide

theorem normalize_reserved_band_witness :
    (1000 ≤ normalizeSample 4810 (-7) ∧ normalizeSample 4810 (-7) ≤ 65535) ∧
    normalizeSample 4810 0 = 1000 :=
  ⟨(normalize_reserved_band 4810 (by norm_num)).1 (-7),
   (normalize_reserved_band 4810 (by norm_num)).2⟩

theorem clampAccess (h w y x : Nat) (g : Nat → Nat → Nat)
    (hy : y < h + h % 2) (hx : x < w + w % 2) :
    (if x < w then (if y < h then g y x else g (h - 1) x)
     else (if y < h then g y (w - 1) else g (h - 1) (w - 1)))
      = g (min y (h - 1)) (min x (w - 1)) := by
  split_ifs with h1 h2 h3 <;> congr 1 <;> omega

/-- C6: every LOD level after level 0 replicates the last row/column once
when a dimension is odd and then averages non-overlapping 2×2 blocks, so
each output pixel is the floor of the mean of the clamped-access 2×2 block
of the input (the pad participates in the average), and the result stays
in the unsigned 16-bit range of the input. -/
theorem downsample_box_average (h w : Nat) (g : Nat → Nat → Nat)
    (hh : 0 < h) (hw : 0 < w) :
    (dsDim h = (h + 1) / 2 ∧ dsDim w = (w + 1) / 2) ∧
    ∀ i j, i < dsDim h → j < dsDim w →
      downsample h w g i j =
        (g (min (2 * i) (h - 1)) (min (2 * j) (w - 1)) +
         g (min (2 * i) (h - 1)) (min (2 * j + 1) (w - 1)) +
         g (min (2 * i + 1) (h - 1)) (min (2 * j) (w - 1)) +
         g (min (2 * i + 1) (h - 1)) (min (2 * j + 1) (w - 1))) / 4 ∧
      ((∀ y x, y < h → x < w → g y x ≤ 65535) → downsample h w g i j ≤ 65535) := by
  refine ⟨⟨by unfold dsDim; omega, by unfold dsDim; omega⟩, ?_⟩
  intro i j hi hj
  have hi2 : 2 * i + 1 < h + h % 2 := by unfold dsDim at hi; omega
  have hj2 : 2 * j + 1 < w + w % 2 := by unfold dsDim at hj; omega
  have key : downsample h w g i j =
      (g (min (2 * i) (h - 1)) (min (2 * j) (w - 1)) +
       g (min (2 * i) (h - 1)) (min (2 * j + 1) (w - 1)) +
       g (min (2 * i + 1) (h - 1)) (min (2 * j) (w - 1)) +
       g (min (2 * i + 1) (h - 1)) (min (2 * j + 1) (w - 1))) / 4 := by
    simp only [downsample]
    rw [clampAccess h w (2 * i) (2 * j) g (by omega) (by omega),
      clampAccess h w (2 * i) (2 * j + 1) g (by omega) hj2,
      clampAccess h w (2 * i + 1) (2 * j) g hi2 (by omega),
      clampAccess h w (2 * i + 1) (2 * j + 1) g hi2 hj2]
  refine ⟨key, fun hb => ?_⟩
  rw [key]
  have b1 := hb (min (2 * i) (h - 1)) (min (2 * j) (w - 1)) (by omega) (by omega)
  have b2 := hb (min (2 * i) (h - 1)) (min (2 * j + 1) (w - 1)) (by omega) (by omega)
  have b3 := hb (min (2 * i + 1) (h - 1)) (min (2 * j) (w - 1)) (by omega) (by omega)
  have b4 := hb (min (2 * i + 1) (h - 1)) (min (2 * j + 1) (w - 1)) (by omega) (by omega)
  omega

def dgrid : Nat → Nat → Nat := fun y x => 100 * y + x

theorem downsample_box_average_witness :
    downsample 3 3 dgrid 1 1 =
      (dgrid (min (2 * 1) (3 - 1)) (min (2 * 1) (3 - 1)) +
       dgrid (min (2 * 1) (3 - 1)) (min (2 * 1 + 1) (3 - 1)) +
       dgrid (min (2 * 1 + 1) (3 - 1)) (min (2 * 1) (3 - 1)) +
       dgrid (min (2 * 1 + 1) (3 - 1)) (min (2 * 1 + 1) (3 - 1))) / 4 :=
  ((downsample_box_average 3 3 dgrid (by norm_num) (by norm_num)).2 1 1
    (by norm_num [dsDim]) (by norm_num [dsDim])).1

/-- C7 counterexample: on the 3×2 buffer with rows `[0,0],[0,0],[65535,65535]`
the replication pad duplicates the extreme last row, so the downsampled
mean is 65535/2 while the source mean is 21845 — the means of consecutive
LOD levels differ by 10922.5, not less than 1. -/
theorem lod_mean_counterexample :
    ¬ |meanQ (dsDim 3) (dsDim 2) (downsample 3 2 c7Grid) - meanQ 3 2 c7Grid| < 1 := by
  have hd0 : downsample 3 2 c7Grid 0 0 = 0 := by decide
  have hd1 : downsample 3 2 c7Grid 1 0 = 65535 := by decide
  have hda : dsDim 3 = 2 := by decide
  have hdb : dsDim 2 = 1 := by decide
  have hm0 : meanQ 3 2 c7Grid = 21845 := by
    simp only [meanQ, Finset.sum_range_succ, Finset.sum_range_zero, c7Grid]
    norm_num
  have hm1 : meanQ (dsDim 3) (dsDim 2) (downsample 3 2 c7Grid) = 65535 / 2 := by
    rw [hda, hdb]
    simp only [meanQ, Finset.sum_range_succ, Finset.sum_range_zero, hd0, hd1]
    norm_num
  rw [hm1, hm0, not_lt, le_abs]
  left
  norm_num

theorem sum_range_two_mul (n : Nat) (v : Nat → ℚ) :
    ∑ i ∈ Finset.range (2 * n), v i = ∑ i ∈ Finset.range n, (v (2 * i) + v (2 * i + 1)) := by
  induction n with
  | zero => simp
  | succ m ih =>
    have h : 2 * (m + 1) = 2 * m + 1 + 1 := by ring
    rw [h, Finset.sum_range_succ, Finset.sum_range_succ, ih, Finset.sum_range_succ]
    ring

/-- C7 amended: when both dimensions of a level are even (no replication
padding is needed), box downsampling moves the buffer-wide mean by at most
3/4 of a normalized unit, in particular by strictly less than 1.  (With an
odd dimension the pad reweights the last row/column and the bound fails,
see the counterexample.) -/
theorem lod_mean_amended (a b : Nat) (ha : 0 < a) (hb : 0 < b) (g : Nat → Nat → Nat) :
    |meanQ (dsDim (2 * a)) (dsDim (2 * b)) (downsample (2 * a) (2 * b) g) -
      meanQ (2 * a) (2 * b) g| < 1 := by
  have hda : dsDim (2 * a) = a := by unfold dsDim; omega
  have hdb : dsDim (2 * b) = b := by unfold dsDim; omega
  have hds : ∀ i j, i < a → j < b → downsample (2 * a) (2 * b) g i j =
      (g (2 * i) (2 * j) + g (2 * i) (2 * j + 1) +
       g (2 * i + 1) (2 * j) + g (2 * i + 1) (2 * j + 1)) / 4 := by
    intro i j hi hj
    simp only [downsample]
    rw [clampAccess (2 * a) (2 * b) (2 * i) (2 * j) g (by omega) (by omega),
      clampAccess (2 * a) (2 * b) (2 * i) (2 * j + 1) g (by omega) (by omega),
      clampAccess (2 * a) (2 * b) (2 * i + 1) (2 * j) g (by omega) (by omega),
      clampAccess (2 * a) (2 * b) (2 * i + 1) (2 * j + 1) g (by omega) (by omega)]
    rw [min_eq_left (by omega : 2 * i ≤ 2 * a - 1), min_eq_left (by omega : 2 * j ≤ 2 * b - 1),
      min_eq_left (by omega : 2 * i + 1 ≤ 2 * a - 1),
      min_eq_left (by omega : 2 * j + 1 ≤ 2 * b - 1)]
  set s : Nat → Nat → Nat := fun i j =>
    g (2 * i) (2 * j) + g (2 * i) (2 * j + 1) +
    g (2 * i + 1) (2 * j) + g (2 * i + 1) (2 * j + 1) with hsdef
  have hD : (∑ i ∈ Finset.range a, ∑ j ∈ Finset.range b,
        ((downsample (2 * a) (2 * b) g i j : Nat) : ℚ))
      = ∑ i ∈ Finset.range a, ∑ j ∈ Finset.range b, ((s i j / 4 : Nat) : ℚ) := by
    refine Finset.sum_congr rfl fun i hi => Finset.sum_congr rfl fun j hj => ?_
    rw [hds i j (Finset.mem_range.mp hi) (Finset.mem_range.mp hj)]
  have hS : (∑ i ∈ Finset.range (2 * a), ∑ j ∈ Finset.range (2 * b), (g i j : ℚ))
      = ∑ i ∈ Finset.range a, ∑ j ∈ Finset.range b, ((s i j : Nat) : ℚ) := by
    rw [sum_range_two_mul a (fun i => ∑ j ∈ Finset.range (2 * b), (g i j : ℚ))]
    refine Finset.sum_congr rfl fun i _ => ?_
    rw [sum_range_two_mul b (fun j => (g (2 * i) j : ℚ)),
      sum_range_two_mul b (fun j => (g (2 * i + 1) j : ℚ)),
      ← Finset.sum_add_distrib]
    refine Finset.sum_congr rfl fun j _ => ?_
    simp only [hsdef]
    push_cast
    ring
  have hterm : ∀ i j, ((s i j / 4 : Nat) : ℚ) = ((s i j : Nat) : ℚ) / 4 - ((s i j % 4 : Nat) : ℚ) / 4 := by
    intro i j
    have hc : (4 : ℚ) * ((s i j / 4 : Nat) : ℚ) + ((s i j % 4 : Nat) : ℚ) = ((s i j : Nat) : ℚ) := by
      exact_mod_cast congrArg (fun n : Nat => (n : ℚ)) (Nat.div_add_mod (s i j) 4)
    linarith
  have hD2 : (∑ i ∈ Finset.range a, ∑ j ∈ Finset.range b, ((s i j / 4 : Nat) : ℚ))
      = (∑ i ∈ Finset.range a, ∑ j ∈ Finset.range b, ((s i j : Nat) : ℚ)) / 4 -
        (∑ i ∈ Finset.range a, ∑ j ∈ Finset.range b, ((s i j % 4 : Nat) : ℚ)) / 4 := by
    rw [Finset.sum_div, Finset.sum_div, ← Finset.sum_sub_distrib]
    refine Finset.sum_congr rfl fun i _ => ?_
    rw [Finset.sum_div, Finset.sum_div, ← Finset.sum_sub_distrib]
    exact Finset.sum_congr rfl fun j _ => hterm i j
  set Mo : ℚ := ∑ i ∈ Finset.range a, ∑ j ∈ Finset.range b, ((s i j % 4 : Nat) : ℚ) with hMo
  set Sg : ℚ := ∑ i ∈ Finset.range a, ∑ j ∈ Finset.range b, ((s i j : Nat) : ℚ) with hSg
  have hMo0 : 0 ≤ Mo := by
    rw [hMo]
    refine Finset.sum_nonneg fun i _ => Finset.sum_nonneg fun j _ => ?_
    positivity
  have hMo3 : Mo ≤ 3 * ((a : ℚ) * b) := by
    rw [hMo]
    calc ∑ i ∈ Finset.range a, ∑ j ∈ Finset.range b, ((s i j % 4 : Nat) : ℚ)
        ≤ ∑ i ∈ Finset.range a, ∑ j ∈ Finset.range b, (3 : ℚ) := by
          refine Finset.sum_le_sum fun i _ => Finset.sum_le_sum fun j _ => ?_
          have : s i j % 4 ≤ 3 := by omega
          exact_mod_cast this
      _ = 3 * ((a : ℚ) * b) := by
          simp [Finset.sum_const, Finset.card_range]
          ring
  have haq : (0 : ℚ) < (a : ℚ) := by exact_mod_cast ha
  have hbq : (0 : ℚ) < (b : ℚ) := by exact_mod_cast hb
  have hmean1 : meanQ (dsDim (2 * a)) (dsDim (2 * b)) (downsample (2 * a) (2 * b) g)
      = (Sg / 4 - Mo / 4) / ((a : ℚ) * b) := by
    rw [hda, hdb]
    simp only [meanQ]
    rw [hD, hD2]
  have hmean0 : meanQ (2 * a) (2 * b) g = Sg / (4 * ((a : ℚ) * b)) := by
    simp only [meanQ]
    rw [hS]
    have : ((2 * a : Nat) : ℚ) * ((2 * b : Nat) : ℚ) = 4 * ((a : ℚ) * b) := by
      push_cast; ring
    rw [this]
  rw [hmean1, hmean0]
  have hdiff : (Sg / 4 - Mo / 4) / ((a : ℚ) * b) - Sg / (4 * ((a : ℚ) * b))
      = -(Mo / (4 * ((a : ℚ) * b))) := by
    field_simp
  rw [hdiff, abs_neg, abs_of_nonneg (by positivity)]
  have h4ab : (0 : ℚ) < 4 * ((a : ℚ) * b) := by positivity
  rw [div_lt_one h4ab]
  nlinarith

theorem lod_mean_amended_witness :
    |meanQ (dsDim (2 * 1)) (dsDim (2 * 1)) (downsample (2 * 1) (2 * 1) dgrid) -
      meanQ (2 * 1) (2 * 1) dgrid| < 1 :=
  lod_mean_amended 1 1 (by norm_num) (by norm_num) dgrid

theorem length_flatMap_const {α β : Type} (l : List α) (f : α → List β) (k : Nat)
    (hf : ∀ a, (f a).length = k) : (l.flatMap f).length = l.length * k := by
  induction l with
  | nil => simp
  | cons a t ih =>
    simp only [List.flatMap_cons, List.length_append, List.length_cons, ih, hf]
    ring

/-- C8: `_chunk_lod` emits exactly `ceil(h/512) * ceil(w/512)` chunk
records (x eastward, y southward, zero-based, and exactly the grid
positions below those bounds occur); edge chunks are zero-padded to
512×512 beyond the buffer; and placing each chunk's non-padding pixel
`(u, v)` back at `(512*cy + u, 512*cx + v)` reconstructs the level
buffer exactly. -/
theorem chunker_roundtrip (h w : Nat) (g : Nat → Nat → Nat) :
    ((chunkRecords h w).length = numChunksAxis h * numChunksAxis w ∧
     ∀ cx cy, (cx, cy) ∈ chunkRecords h w ↔ cy < numChunksAxis h ∧ cx < numChunksAxis w) ∧
    (∀ cy cx u v, u < CHUNK_SIZE_PX → v < CHUNK_SIZE_PX →
      (h ≤ cy * CHUNK_SIZE_PX + u ∨ w ≤ cx * CHUNK_SIZE_PX + v) →
      chunkData h w g cy cx u v = 0) ∧
    (∀ y x, y < h → x < w →
      chunkData h w g (y / CHUNK_SIZE_PX) (x / CHUNK_SIZE_PX)
        (y % CHUNK_SIZE_PX) (x % CHUNK_SIZE_PX) = g y x) := by
  refine ⟨⟨?_, ?_⟩, ?_, ?_⟩
  · rw [chunkRecords,
      length_flatMap_const _ _ (numChunksAxis w) (fun a => by simp),
      List.length_range]
  · intro cx cy
    constructor
    · intro hm
      simp only [chunkRecords, List.mem_flatMap, List.mem_map, List.mem_range] at hm
      obtain ⟨a, ha, b, hb, heq⟩ := hm
      injection heq with h1 h2
      subst h1; subst h2
      exact ⟨ha, hb⟩
    · intro ⟨h1, h2⟩
      simp only [chunkRecords, List.mem_flatMap, List.mem_map, List.mem_range]
      exact ⟨cy, h1, cx, h2, rfl⟩
  · intro cy cx u v hu hv hedge
    simp only [chunkData, CHUNK_SIZE_PX] at *
    rw [if_neg]
    omega
  · intro y x hy hx
    simp only [chunkData, CHUNK_SIZE_PX]
    rw [if_pos (by omega)]
    congr 1 <;> omega

theorem chunker_roundtrip_witness :
    chunkData 600 513 dgrid (599 / CHUNK_SIZE_PX) (512 / CHUNK_SIZE_PX)
      (599 % CHUNK_SIZE_PX) (512 % CHUNK_SIZE_PX) = dgrid 599 512 ∧
    (chunkRecords 600 513).length = numChunksAxis 600 * numChunksAxis 513 :=
  ⟨(chunker_roundtrip 600 513 dgrid).2.2 599 512 (by norm_num) (by norm_num),
   (chunker_roundtrip 600 513 dgrid).1.1⟩

theorem placeTile_of_not_covers (hpx wpx ppd td latMax lonMin : Int) (down : Bool)
    (m : Int → Int → Int) (tl : Int × Int × Option (Int → Int → Int)) (y x : Int)
    (hnc : ¬ coversPx hpx wpx ppd td latMax lonMin tl.1 tl.2.1 y x) :
    placeTile hpx wpx ppd td latMax lonMin down m tl y x = m y x := by
  simp only [placeTile]
  simp only [coversPx] at hnc
  rw [if_neg hnc]

theorem mergeFold_untouched (hpx wpx ppd td latMax lonMin : Int) (down : Bool)
    (l : List (Int × Int × Option (Int → Int → Int))) (m : Int → Int → Int) (y x : Int)
    (hl : ∀ tl ∈ l, ¬ coversPx hpx wpx ppd td latMax lonMin tl.1 tl.2.1 y x) :
    l.foldl (placeTile hpx wpx ppd td latMax lonMin down) m y x = m y x := by
  induction l generalizing m with
  | nil => rfl
  | cons a tail ih =>
    rw [List.foldl_cons, ih _ fun tl htl => hl tl (List.mem_cons_of_mem a htl)]
    exact placeTile_of_not_covers hpx wpx ppd td latMax lonMin down m a y x
      (hl a (List.mem_cons_self a tail))

/-- C4: for a whole-degree bounding box in either resolution mode, the
merged mosaic's pixel at any coordinate inside the clipped placement
region of a present tile — and not covered again by a later tile in scan
order — equals exactly that tile's pixel (stride-3 decimated first in
decimated mode) translated by `y_offset = (lat_max - (lat+1)) * ppd` and
`x_offset = (lon - lon_min) * ppd`. -/
theorem merge_offsets_exact (latMin latMax lonMin lonMax : Int) (down : Bool)
    (pre post : List (Int × Int × Option (Int → Int → Int)))
    (lat lon : Int) (t : Int → Int → Int) (y x : Int)
    (hcov : coversPx ((latMax - latMin) * pxPerDegree down)
      ((lonMax - lonMin) * pxPerDegree down) (pxPerDegree down) (pxPerDegree down + 1)
      latMax lonMin lat lon y x)
    (hlater : ∀ tl ∈ post, ¬ coversPx ((latMax - latMin) * pxPerDegree down)
      ((lonMax - lonMin) * pxPerDegree down) (pxPerDegree down) (pxPerDegree down + 1)
      latMax lonMin tl.1 tl.2.1 y x) :
    mergeTiles latMin latMax lonMin lonMax down (pre ++ (lat, lon, some t) :: post) y x =
      (if down then
        t (3 * (y - (latMax - (lat + 1)) * pxPerDegree down))
          (3 * (x - (lon - lonMin) * pxPerDegree down))
      else
        t (y - (latMax - (lat + 1)) * pxPerDegree down)
          (x - (lon - lonMin) * pxPerDegree down)) := by
  simp only [mergeTiles]
  rw [List.foldl_append, List.foldl_cons]
  rw [mergeFold_untouched _ _ _ _ _ _ down post _ y x hlater]
  simp only [placeTile]
  simp only [coversPx] at hcov
  rw [if_pos hcov]
  cases down <;> simp [tileValue]

def wTile : Int → Int → Int := fun u v => 1000 * u + v

theorem merge_offsets_exact_witness :
    mergeTiles 47 48 6 7 false ([] ++ (47, 6, some wTile) :: []) 5 7 =
      (if false then
        wTile (3 * (5 - (48 - (47 + 1)) * pxPerDegree false))
          (3 * (7 - (6 - 6) * pxPerDegree false))
      else
        wTile (5 - (48 - (47 + 1)) * pxPerDegree false) (7 - (6 - 6) * pxPerDegree false)) :=
  merge_offsets_exact 47 48 6 7 false [] [] 47 6 wTile 5 7
    (by norm_num [coversPx, pxPerDegree]) (by simp)

/-- C9: when no elevation palette is available, overview colouring is
total and never fails: the warning flag is reported, every land pixel
(at or above the 5 m water threshold after the uint16-to-meters
conversion) gets the one constant fallback colour, and every water pixel
gets the constant water colour. -/
theorem overview_no_palette_fallback (oh ow : Int) (M : ℚ) (master : Int → Int → Int) :
    (overviewColors oh ow M none master).2 = true ∧
    ∀ y x,
      (¬ elevMOf M (master y x) < 5 →
        (overviewColors oh ow M none master).1 y x = COLOR_FALLBACK_LAND) ∧
      (elevMOf M (master y x) < 5 →
        (overviewColors oh ow M none master).1 y x = COLOR_WATER_OVERVIEW) := by
  refine ⟨rfl, fun y x => ⟨fun hl => ?_, fun hw => ?_⟩⟩
  · show (if elevMOf M (master y x) < 5 then COLOR_WATER_OVERVIEW else COLOR_FALLBACK_LAND) =
      COLOR_FALLBACK_LAND
    rw [if_neg hl]
  · show (if elevMOf M (master y x) < 5 then COLOR_WATER_OVERVIEW else COLOR_FALLBACK_LAND) =
      COLOR_WATER_OVERVIEW
    rw [if_pos hw]

theorem overview_no_palette_fallback_witness :
    (overviewColors 1 1 8000 none (fun _ _ => 5000)).2 = true ∧
    (overviewColors 1 1 8000 none (fun _ _ => 5000)).1 0 0 = COLOR_FALLBACK_LAND ∧
    (overviewColors 1 1 8000 none (fun _ _ => 900)).1 0 0 = COLOR_WATER_OVERVIEW :=
  ⟨(overview_no_palette_fallback 1 1 8000 (fun _ _ => 5000)).1,
   ((overview_no_palette_fallback 1 1 8000 (fun _ _ => 5000)).2 0 0).1 (by
      norm_num [elevMOf]),
   ((overview_no_palette_fallback 1 1 8000 (fun _ _ => 900)).2 0 0).2 (by
      norm_num [elevMOf])⟩

theorem update2_read_same {α : Type} (g : Int → Int → α) (y x : Int) (v : α) :
    update2 g y x v y x = v := by simp [update2]

theorem update2_read_ne {α : Type} (g : Int → Int → α) (y x : Int) (v : α) (a b : Int)
    (hne : ¬(a = y ∧ b = x)) : update2 g y x v a b = g a b := by
  simp only [update2]
  rw [if_neg hne]

theorem list_sum_lower (b : Int) (l : List Int) (hl : ∀ v ∈ l, b ≤ v) :
    b * l.length ≤ l.sum := by
  induction l with
  | nil => simp
  | cons a t ih =>
    have ha := hl a (List.mem_cons_self a t)
    have ht := ih fun v hv => hl v (List.mem_cons_of_mem a hv)
    simp only [List.sum_cons, List.length_cons]
    push_cast
    linarith

theorem list_sum_lower_strict (b : Int) (l : List Int) (hl : ∀ v ∈ l, b ≤ v)
    (hw : ∃ v ∈ l, b + 1 ≤ v) : b * l.length + 1 ≤ l.sum := by
  induction l with
  | nil => simp at hw
  | cons a t ih =>
    obtain ⟨v, hv, hbv⟩ := hw
    have htall := fun u hu => hl u (List.mem_cons_of_mem a hu)
    rcases List.mem_cons.mp hv with hva | hvt
    · subst hva
      have ht := list_sum_lower b t htall
      simp only [List.sum_cons, List.length_cons]
      push_cast
      linarith
    · have ht := ih htall ⟨v, hvt, hbv⟩
      have ha := hl a (List.mem_cons_self a t)
      simp only [List.sum_cons, List.length_cons]
      push_cast
      linarith

theorem pyMeanInt_ge (l : List Int) (hne : l ≠ []) (hb : ∀ v ∈ l, -32768 ≤ v) :
    -32768 ≤ pyMeanInt l := by
  have hs : -32768 * (l.length : Int) ≤ l.sum := list_sum_lower (-32768) l hb
  have hn : 0 < l.length := List.length_pos.mpr hne
  unfold pyMeanInt intTruncDiv
  split
  · have hnn : (0 : Int) ≤ ((l.sum.toNat / l.length : Nat) : Int) := by positivity
    omega
  · rename_i h0
    push_neg at h0
    have h1 : (-l.sum).toNat ≤ 32768 * l.length := by omega
    have h2 : (-l.sum).toNat / l.length < 32769 := by
      rw [Nat.div_lt_iff_lt_mul hn]
      omega
    omega

theorem pyMeanInt_ge_strict (l : List Int) (hne : l ≠ []) (hb : ∀ v ∈ l, -32768 ≤ v)
    (hw : ∃ v ∈ l, -32767 ≤ v) : -32767 ≤ pyMeanInt l := by
  have hs : -32768 * (l.length : Int) + 1 ≤ l.sum := by
    obtain ⟨v, hv, hbv⟩ := hw
    exact list_sum_lower_strict (-32768) l hb ⟨v, hv, by omega⟩
  have hn : 0 < l.length := List.length_pos.mpr hne
  unfold pyMeanInt intTruncDiv
  split
  · have hnn : (0 : Int) ≤ ((l.sum.toNat / l.length : Nat) : Int) := by positivity
    omega
  · rename_i h0
    push_neg at h0
    have h1 : (-l.sum).toNat ≤ 32768 * l.length - 1 := by omega
    have h2 : (-l.sum).toNat / l.length < 32768 := by
      rw [Nat.div_lt_iff_lt_mul hn]
      omega
    omega

theorem mem_allCoords {h w y x : Int} : (y, x) ∈ allCoords h w ↔ inGrid h w y x := by
  simp [allCoords, inGrid, List.mem_flatMap, List.mem_map, List.mem_range]
  constructor
  · rintro ⟨a, ha, ⟨b, hb, hx⟩, hy⟩
    omega
  · intro hg
    exact ⟨y.toNat, by omega, ⟨x.toNat, by omega, by omega⟩, by omega⟩

theorem collectNbrs_vals {h w : Int} {F : Int → Int → Int} {rem : Int → Int → Bool}
    {y x v : Int} (hv : v ∈ collectNbrs h w F rem y x) :
    ∃ ny nx, inGrid h w ny nx ∧ rem ny nx = false ∧ v = F ny nx := by
  simp only [collectNbrs, List.mem_filterMap] at hv
  obtain ⟨d, hd, heq⟩ := hv
  by_cases hcond : 0 ≤ y + d.1 ∧ y + d.1 < h ∧ 0 ≤ x + d.2 ∧ x + d.2 < w ∧
      rem (y + d.1) (x + d.2) = false
  · rw [if_pos hcond] at heq
    exact ⟨y + d.1, x + d.2, ⟨hcond.1, hcond.2.1, hcond.2.2.1, hcond.2.2.2.1⟩,
      hcond.2.2.2.2, (Option.some.inj heq).symm⟩
  · rw [if_neg hcond] at heq
    simp at heq

theorem collectNbrs_mem_of (h w : Int) (F : Int → Int → Int) (rem : Int → Int → Bool)
    (y x : Int) (d : Int × Int) (hd : d ∈ nbrOffsets)
    (hcond : 0 ≤ y + d.1 ∧ y + d.1 < h ∧ 0 ≤ x + d.2 ∧ x + d.2 < w ∧
      rem (y + d.1) (x + d.2) = false) :
    F (y + d.1) (x + d.2) ∈ collectNbrs h w F rem y x := by
  simp only [collectNbrs, List.mem_filterMap]
  exact ⟨d, hd, by rw [if_pos hcond]⟩

theorem kernelW_pos (dy dx : Int) : 0 < kernelW dy dx := by
  unfold kernelW
  split_ifs <;> norm_num

theorem truncQ_ne_sentinel {q : ℚ} (hq : (-32768 : ℚ) < q) : truncQ q ≠ SRTM_NODATA := by
  unfold truncQ SRTM_NODATA
  split
  · rename_i h0
    have h1 : (0 : Int) ≤ ⌊q⌋ := Int.le_floor.mpr (by exact_mod_cast h0)
    omega
  · have h1 : (q : ℚ) ≤ (⌈q⌉ : ℚ) := Int.le_ceil q
    have h2 : ((-32768 : Int) : ℚ) < (⌈q⌉ : ℚ) := by push_cast; linarith
    have h3 : (-32768 : Int) < ⌈q⌉ := by exact_mod_cast h2
    omega

theorem fillStep_preserves (h w r c : Int) (f : Int → Int → Int)
    (hr1 : 1 ≤ r) (hr2 : r + 4 ≤ h) (hc1 : 1 ≤ c) (hc2 : c + 4 ≤ w)
    (hvalid : ∀ y x, inGrid h w y x → ¬ inBlock r c y x → -32767 ≤ f y x ∧ f y x ≤ 32767)
    (st : FillState) (p : Int × Int) (hp : inGrid h w p.1 p.2)
    (hinv : FillInv h w r c f st) :
    FillInv h w r c f (fillStep h w st p) ∧
    (∀ a b, st.remaining a b = false → (fillStep h w st p).remaining a b = false) ∧
    (p = (r, c) → (fillStep h w st p).remaining r c = false) := by
  obtain ⟨I1, I2, I3, I4⟩ := hinv
  have hringRem : st.remaining (r + (-1 : Int)) (c + (0 : Int)) = false :=
    (I3 (r + (-1 : Int)) (c + (0 : Int))
      (by simp only [inGrid]; omega) (by simp only [inBlock]; omega)).2.2
  have hringF : st.filled (r + (-1 : Int)) (c + (0 : Int)) = f (r + (-1 : Int)) (c + (0 : Int)) :=
    (I3 (r + (-1 : Int)) (c + (0 : Int))
      (by simp only [inGrid]; omega) (by simp only [inBlock]; omega)).1
  have hringV : -32767 ≤ f (r + (-1 : Int)) (c + (0 : Int)) :=
    (hvalid (r + (-1 : Int)) (c + (0 : Int))
      (by simp only [inGrid]; omega) (by simp only [inBlock]; omega)).1
  have hringMem : st.filled (r + (-1 : Int)) (c + (0 : Int)) ∈
      collectNbrs h w st.filled st.remaining r c :=
    collectNbrs_mem_of h w st.filled st.remaining r c ((-1 : Int), (0 : Int))
      (by simp [nbrOffsets])
      ⟨by omega, by omega, by omega, by omega, hringRem⟩
  by_cases hrem : st.remaining p.1 p.2 = true
  · have hpb : inBlock r c p.1 p.2 := by
      by_contra hnb
      rw [(I3 p.1 p.2 hp hnb).2.2] at hrem
      simp at hrem
    by_cases hemp : (collectNbrs h w st.filled st.remaining p.1 p.2).isEmpty = true
    · have hres : fillStep h w st p = st := by
        unfold fillStep
        rw [if_pos hrem, if_pos hemp]
      rw [hres]
      refine ⟨⟨I1, I2, I3, I4⟩, fun a b hab => hab, ?_⟩
      intro hpeq
      exfalso
      have h1 : p.1 = r := by rw [hpeq]
      have h2 : p.2 = c := by rw [hpeq]
      rw [h1, h2] at hemp
      rw [List.isEmpty_iff] at hemp
      rw [hemp] at hringMem
      simp at hringMem
    · have hres : fillStep h w st p =
          { filled := st.filled
            newFilled := update2 st.newFilled p.1 p.2
              (pyMeanInt (collectNbrs h w st.filled st.remaining p.1 p.2))
            remaining := update2 st.remaining p.1 p.2 false } := by
        unfold fillStep
        rw [if_pos hrem, if_neg hemp]
      set nbrs := collectNbrs h w st.filled st.remaining p.1 p.2 with hnbrsdef
      have hnbrsne : nbrs ≠ [] := by
        intro h0
        rw [h0] at hemp
        simp at hemp
      have hnbrsb : ∀ v ∈ nbrs, -32768 ≤ v := by
        intro v hv
        obtain ⟨ny, nx, hgn, _, hveq⟩ := collectNbrs_vals hv
        rw [hveq]
        exact I1 ny nx hgn
      have hm : -32768 ≤ pyMeanInt nbrs := pyMeanInt_ge nbrs hnbrsne hnbrsb
      rw [hres]
      refine ⟨⟨?_, ?_, ?_, ?_⟩, ?_, ?_⟩
      · intro a b hab
        dsimp only
        exact I1 a b hab
      · intro a b hab
        dsimp only
        by_cases he : a = p.1 ∧ b = p.2
        · obtain ⟨rfl, rfl⟩ := he
          rw [update2_read_same]
          exact hm
        · rw [update2_read_ne _ _ _ _ _ _ he]
          exact I2 a b hab
      · intro a b hab hnb
        dsimp only
        have hne : ¬(a = p.1 ∧ b = p.2) := by
          rintro ⟨rfl, rfl⟩
          exact hnb hpb
        refine ⟨(I3 a b hab hnb).1, ?_, ?_⟩
        · rw [update2_read_ne _ _ _ _ _ _ hne]
          exact (I3 a b hab hnb).2.1
        · rw [update2_read_ne _ _ _ _ _ _ hne]
          exact (I3 a b hab hnb).2.2
      · dsimp only
        by_cases hpc : p = (r, c)
        · right
          have h1 : p.1 = r := by rw [hpc]
          have h2 : p.2 = c := by rw [hpc]
          rw [h1, h2, update2_read_same]
          rw [h1, h2] at hnbrsdef
          have hval : -32767 ≤ st.filled (r + (-1 : Int)) (c + (0 : Int)) := by
            rw [hringF]
            exact hringV
          rw [hnbrsdef]
          refine pyMeanInt_ge_strict _ (by rw [← hnbrsdef]; exact hnbrsne)
            (by rw [← hnbrsdef]; exact hnbrsb) ⟨_, hringMem, hval⟩
        · have hne : ¬(r = p.1 ∧ c = p.2) := by
            rintro ⟨rfl, rfl⟩
            exact hpc (by simp)
          rw [update2_read_ne _ _ _ _ _ _ hne, update2_read_ne _ _ _ _ _ _ hne]
          exact I4
      · intro a b hab
        dsimp only
        by_cases he : a = p.1 ∧ b = p.2
        · obtain ⟨rfl, rfl⟩ := he
          rw [update2_read_same]
        · rw [update2_read_ne _ _ _ _ _ _ he]
          exact hab
      · intro hpeq
        dsimp only
        have h1 : p.1 = r := by rw [hpeq]
        have h2 : p.2 = c := by rw [hpeq]
        rw [← h1, ← h2, update2_read_same]
  · have hres : fillStep h w st p = st := by
      unfold fillStep
      rw [if_neg hrem]
    rw [hres]
    refine ⟨⟨I1, I2, I3, I4⟩, fun a b hab => hab, ?_⟩
    intro hpeq
    have h1 : p.1 = r := by rw [hpeq]
    have h2 : p.2 = c := by rw [hpeq]
    rw [← h1, ← h2]
    simpa using hrem

theorem fillFold_preserves (h w r c : Int) (f : Int → Int → Int)
    (hr1 : 1 ≤ r) (hr2 : r + 4 ≤ h) (hc1 : 1 ≤ c) (hc2 : c + 4 ≤ w)
    (hvalid : ∀ y x, inGrid h w y x → ¬ inBlock r c y x → -32767 ≤ f y x ∧ f y x ≤ 32767)
    (l : List (Int × Int)) (hl : ∀ p ∈ l, inGrid h w p.1 p.2) :
    ∀ st, FillInv h w r c f st →
      FillInv h w r c f (l.foldl (fillStep h w) st) ∧
      (((r, c) ∈ l ∨ st.remaining r c = false) →
        (l.foldl (fillStep h w) st).remaining r c = false) := by
  induction l with
  | nil =>
    intro st hst
    refine ⟨hst, ?_⟩
    rintro (hm | hf)
    · simp at hm
    · exact hf
  | cons p t ih =>
    intro st hst
    have hp := hl p (List.mem_cons_self p t)
    have hstep := fillStep_preserves h w r c f hr1 hr2 hc1 hc2 hvalid st p hp hst
    have ht := ih (fun q hq => hl q (List.mem_cons_of_mem p hq)) (fillStep h w st p) hstep.1
    rw [List.foldl_cons]
    refine ⟨ht.1, ?_⟩
    rintro (hm | hf)
    · rcases List.mem_cons.mp hm with hpe | hmt
      · exact ht.2 (Or.inr (hstep.2.2 hpe.symm))
      · exact ht.2 (Or.inl hmt)
    · exact ht.2 (Or.inr (hstep.2.1 r c hf))

theorem fillLoop_preserves (h w r c : Int) (f : Int → Int → Int)
    (hr1 : 1 ≤ r) (hr2 : r + 4 ≤ h) (hc1 : 1 ≤ c) (hc2 : c + 4 ≤ w)
    (hvalid : ∀ y x, inGrid h w y x → ¬ inBlock r c y x → -32767 ≤ f y x ∧ f y x ≤ 32767) :
    ∀ (n : Nat) (F : Int → Int → Int) (R : Int → Int → Bool),
      LoopInv h w r c f F R → R r c = false →
      LoopInv h w r c f (fillLoop h w n F R).1 (fillLoop h w n F R).2 ∧
      (fillLoop h w n F R).2 r c = false := by
  intro n
  induction n with
  | zero =>
    intro F R hFR hrc
    exact ⟨hFR, hrc⟩
  | succ n ih =>
    intro F R hFR hrc
    simp only [fillLoop]
    by_cases hany : anyRemaining h w R = true
    · rw [if_pos hany]
      have hFill : FillInv h w r c f ⟨F, F, R⟩ := by
        refine ⟨hFR.1, hFR.1, ?_, ?_⟩
        · intro y x hg hnb
          exact ⟨(hFR.2.1 y x hg hnb).1, (hFR.2.1 y x hg hnb).1, (hFR.2.1 y x hg hnb).2⟩
        · right
          rcases hFR.2.2 with h1 | h1
          · rw [hrc] at h1
            simp at h1
          · exact h1
      have hfold := fillFold_preserves h w r c f hr1 hr2 hc1 hc2 hvalid (allCoords h w)
        (fun q hq => by
          have : (q.1, q.2) ∈ allCoords h w := by rwa [Prod.mk.eta]
          exact mem_allCoords.mp this)
        ⟨F, F, R⟩ hFill
      have hnext : LoopInv h w r c f (fillIter h w F R).newFilled (fillIter h w F R).remaining := by
        obtain ⟨J1, J2, J3, J4⟩ := hfold.1
        exact ⟨J2, fun y x hg hnb => ⟨(J3 y x hg hnb).2.1, (J3 y x hg hnb).2.2⟩, J4⟩
      have hrcnext : (fillIter h w F R).remaining r c = false :=
        hfold.2 (Or.inr hrc)
      exact ih (fillIter h w F R).newFilled (fillIter h w F R).remaining hnext hrcnext
    · rw [if_neg hany]
      exact ⟨hFR, hrc⟩

theorem fillLoop_succ_of_any (h w : Int) (n : Nat) (F : Int → Int → Int)
    (R : Int → Int → Bool) (hany : anyRemaining h w R = true) :
    fillLoop h w (n + 1) F R =
      fillLoop h w n (fillIter h w F R).newFilled (fillIter h w F R).remaining := by
  simp only [fillLoop]
  rw [if_pos hany]

theorem simpleVoidFill_facts (h w r c : Int) (f : Int → Int → Int)
    (hr1 : 1 ≤ r) (hr2 : r + 4 ≤ h) (hc1 : 1 ≤ c) (hc2 : c + 4 ≤ w)
    (hblock : ∀ y x, inGrid h w y x → inBlock r c y x → f y x = SRTM_NODATA)
    (hvalid : ∀ y x, inGrid h w y x → ¬ inBlock r c y x → -32767 ≤ f y x ∧ f y x ≤ 32767) :
    (∀ y x, inGrid h w y x → -32768 ≤ simpleVoidFill h w f (voidMaskOf f) y x) ∧
    (∀ y x, inGrid h w y x → ¬ inBlock r c y x →
      simpleVoidFill h w f (voidMaskOf f) y x = f y x) ∧
    -32767 ≤ simpleVoidFill h w f (voidMaskOf f) r c := by
  have hrc_grid : inGrid h w r c := by simp only [inGrid]; omega
  have hrc_block : inBlock r c r c := by simp only [inBlock]; omega
  have hmem : (r, c) ∈ allCoords h w := mem_allCoords.mpr hrc_grid
  have hmaskrc : voidMaskOf f r c = true := by
    simp [voidMaskOf, hblock r c hrc_grid hrc_block]
  have hlow : ∀ y x, inGrid h w y x → -32768 ≤ f y x := by
    intro y x hg
    by_cases hb : inBlock r c y x
    · rw [hblock y x hg hb]
      simp [SRTM_NODATA]
    · have := (hvalid y x hg hb).1
      omega
  have hFill0 : FillInv h w r c f ⟨f, f, voidMaskOf f⟩ := by
    refine ⟨hlow, hlow, ?_, Or.inl hmaskrc⟩
    intro y x hg hnb
    have hne : f y x ≠ SRTM_NODATA := by
      have := (hvalid y x hg hnb).1
      simp only [SRTM_NODATA]
      omega
    exact ⟨rfl, rfl, by simp [voidMaskOf, hne]⟩
  have hany : anyRemaining h w (voidMaskOf f) = true := by
    unfold anyRemaining
    rw [List.any_eq_true]
    exact ⟨(r, c), hmem, hmaskrc⟩
  have hfold := fillFold_preserves h w r c f hr1 hr2 hc1 hc2 hvalid (allCoords h w)
    (fun q hq => by
      have : (q.1, q.2) ∈ allCoords h w := by rwa [Prod.mk.eta]
      exact mem_allCoords.mp this)
    ⟨f, f, voidMaskOf f⟩ hFill0
  have hnext : LoopInv h w r c f (fillIter h w f (voidMaskOf f)).newFilled
      (fillIter h w f (voidMaskOf f)).remaining := by
    obtain ⟨J1, J2, J3, J4⟩ := hfold.1
    exact ⟨J2, fun y x hg hnb => ⟨(J3 y x hg hnb).2.1, (J3 y x hg hnb).2.2⟩, J4⟩
  have hrcnext : (fillIter h w f (voidMaskOf f)).remaining r c = false :=
    hfold.2 (Or.inl hmem)
  have hloop := fillLoop_preserves h w r c f hr1 hr2 hc1 hc2 hvalid 99
    (fillIter h w f (voidMaskOf f)).newFilled (fillIter h w f (voidMaskOf f)).remaining
    hnext hrcnext
  have hunfold : simpleVoidFill h w f (voidMaskOf f) =
      (fillLoop h w 99 (fillIter h w f (voidMaskOf f)).newFilled
        (fillIter h w f (voidMaskOf f)).remaining).1 := by
    unfold simpleVoidFill
    rw [show (100 : Nat) = 99 + 1 from rfl,
      fillLoop_succ_of_any h w 99 f (voidMaskOf f) hany]
  rw [hunfold]
  obtain ⟨⟨K1, K2, K3⟩, Krc⟩ := hloop
  refine ⟨K1, fun y x hg hnb => (K2 y x hg hnb).1, ?_⟩
  rcases K3 with h1 | h1
  · rw [Krc] at h1
    simp at h1
  · exact h1

theorem smoothAccStep_mono (h w : Int) (g : Int → Int → ℚ) (y x : Int) (B : ℚ)
    (hg : ∀ a b, inGrid h w a b → B ≤ g a b) (acc : ℚ × ℚ) (d : Int × Int) :
    acc.2 ≤ (smoothAccStep h w g y x acc d).2 ∧
    acc.1 - B * acc.2 ≤
      (smoothAccStep h w g y x acc d).1 - B * (smoothAccStep h w g y x acc d).2 := by
  simp only [smoothAccStep]
  split
  · rename_i hin
    have hgv : B ≤ g (y + d.1) (x + d.2) := hg _ _ hin
    have hkp := kernelW_pos d.1 d.2
    constructor
    · dsimp only
      linarith
    · dsimp only
      nlinarith
  · exact ⟨le_refl _, le_refl _⟩

theorem smoothFoldAcc_mono (h w : Int) (g : Int → Int → ℚ) (y x : Int) (B : ℚ)
    (hg : ∀ a b, inGrid h w a b → B ≤ g a b) :
    ∀ (l : List (Int × Int)) (acc : ℚ × ℚ),
      acc.2 ≤ (l.foldl (smoothAccStep h w g y x) acc).2 ∧
      acc.1 - B * acc.2 ≤ (l.foldl (smoothAccStep h w g y x) acc).1 -
        B * (l.foldl (smoothAccStep h w g y x) acc).2 := by
  intro l
  induction l with
  | nil => intro acc; exact ⟨le_refl _, le_refl _⟩
  | cons d t ih =>
    intro acc
    rw [List.foldl_cons]
    have hstep := smoothAccStep_mono h w g y x B hg acc d
    obtain ⟨ih1, ih2⟩ := ih (smoothAccStep h w g y x acc d)
    exact ⟨le_trans hstep.1 ih1, le_trans hstep.2 ih2⟩

theorem smoothFoldAcc_witness (h w : Int) (g : Int → Int → ℚ) (y x : Int) (B : ℚ)
    (hg : ∀ a b, inGrid h w a b → B ≤ g a b)
    (d : Int × Int) (hin : 0 ≤ y + d.1 ∧ y + d.1 < h ∧ 0 ≤ x + d.2 ∧ x + d.2 < w)
    (hv : B < g (y + d.1) (x + d.2)) :
    ∀ (l : List (Int × Int)), d ∈ l → ∀ acc : ℚ × ℚ,
      acc.2 + kernelW d.1 d.2 ≤ (l.foldl (smoothAccStep h w g y x) acc).2 ∧
      acc.1 - B * acc.2 < (l.foldl (smoothAccStep h w g y x) acc).1 -
        B * (l.foldl (smoothAccStep h w g y x) acc).2 := by
  intro l
  induction l with
  | nil => intro hd; simp at hd
  | cons a t ih =>
    intro hd acc
    rw [List.foldl_cons]
    have hkp := kernelW_pos d.1 d.2
    rcases List.mem_cons.mp hd with heq | hdt
    · subst heq
      have hstep : (smoothAccStep h w g y x acc d).2 = acc.2 + kernelW d.1 d.2 ∧
          (smoothAccStep h w g y x acc d).1 = acc.1 + g (y + d.1) (x + d.2) * kernelW d.1 d.2 := by
        simp only [smoothAccStep]
        rw [if_pos hin]
        exact ⟨rfl, rfl⟩
      obtain ⟨hm1, hm2⟩ := smoothFoldAcc_mono h w g y x B hg t (smoothAccStep h w g y x acc d)
      rw [hstep.1] at hm1
      rw [hstep.1, hstep.2] at hm2
      refine ⟨hm1, lt_of_lt_of_le ?_ hm2⟩
      nlinarith
    · have hstep := smoothAccStep_mono h w g y x B hg acc a
      obtain ⟨ih1, ih2⟩ := ih hdt (smoothAccStep h w g y x acc a)
      exact ⟨le_trans (by linarith [hstep.1]) ih1, lt_of_le_of_lt hstep.2 ih2⟩

theorem smoothAt_ge (h w : Int) (g : Int → Int → ℚ) (y x : Int) (B : ℚ)
    (hyx : inGrid h w y x) (hg : ∀ a b, inGrid h w a b → B ≤ g a b) :
    B ≤ smoothAt h w g y x := by
  unfold smoothAt smoothAcc
  have hmono := smoothFoldAcc_mono h w g y x B hg kernelOffsets (0, 0)
  by_cases hpos : 0 < (kernelOffsets.foldl (smoothAccStep h w g y x) (0, 0)).2
  · rw [if_pos hpos]
    rw [le_div_iff hpos]
    have h2 := hmono.2
    simp only at h2
    linarith
  · rw [if_neg hpos]
    exact hg y x hyx

theorem smoothAt_gt (h w : Int) (g : Int → Int → ℚ) (y x : Int) (B : ℚ)
    (hg : ∀ a b, inGrid h w a b → B ≤ g a b)
    (d : Int × Int) (hd : d ∈ kernelOffsets)
    (hin : 0 ≤ y + d.1 ∧ y + d.1 < h ∧ 0 ≤ x + d.2 ∧ x + d.2 < w)
    (hv : B < g (y + d.1) (x + d.2)) : B < smoothAt h w g y x := by
  unfold smoothAt smoothAcc
  have hwit := smoothFoldAcc_witness h w g y x B hg d hin hv kernelOffsets hd (0, 0)
  have hkp := kernelW_pos d.1 d.2
  have hpos : 0 < (kernelOffsets.foldl (smoothAccStep h w g y x) (0, 0)).2 := by
    have h1 := hwit.1
    simp only at h1
    linarith
  rw [if_pos hpos, lt_div_iff hpos]
  have h2 := hwit.2
  simp only at h2
  linarith

theorem smoothAt_block_strict (h w r c : Int) (f : Int → Int → Int)
    (hr1 : 1 ≤ r) (hr2 : r + 4 ≤ h) (hc1 : 1 ≤ c) (hc2 : c + 4 ≤ w)
    (hvalid : ∀ y x, inGrid h w y x → ¬ inBlock r c y x → -32767 ≤ f y x ∧ f y x ≤ 32767)
    (g : Int → Int → ℚ) (hinv : SmoothInv h w r c f g)
    (qy qx : Int) (hq : inGrid h w qy qx) (hqb : inBlock r c qy qx) :
    (-32768 : ℚ) < smoothAt h w g qy qx := by
  obtain ⟨S1, S2, S3⟩ := hinv
  have hqbn : r ≤ qy ∧ qy < r + 3 ∧ c ≤ qx ∧ qx < c + 3 := by
    simpa only [inBlock] using hqb
  have hring : ∀ a b, inGrid h w a b → ¬ inBlock r c a b → (-32768 : ℚ) < g a b := by
    intro a b h1 h2
    rw [S2 a b h1 h2]
    have h3 := (hvalid a b h1 h2).1
    exact_mod_cast (by omega : (-32768 : Int) < f a b)
  have hy : qy = r ∨ qy = r + 1 ∨ qy = r + 2 := by omega
  have hx : qx = c ∨ qx = c + 1 ∨ qx = c + 2 := by omega
  rcases hy with hy | hy | hy
  · exact smoothAt_gt h w g qy qx (-32768) S1 ((-1 : Int), (0 : Int))
      (by simp [kernelOffsets]) ⟨by omega, by omega, by omega, by omega⟩
      (hring (qy + (-1 : Int)) (qx + (0 : Int)) (by simp only [inGrid]; omega)
        (by simp only [inBlock]; omega))
  · rcases hx with hx | hx | hx
    · exact smoothAt_gt h w g qy qx (-32768) S1 ((0 : Int), (-1 : Int))
        (by simp [kernelOffsets]) ⟨by omega, by omega, by omega, by omega⟩
        (hring (qy + (0 : Int)) (qx + (-1 : Int)) (by simp only [inGrid]; omega)
          (by simp only [inBlock]; omega))
    · refine smoothAt_gt h w g qy qx (-32768) S1 ((-1 : Int), (-1 : Int))
        (by simp [kernelOffsets]) ⟨by omega, by omega, by omega, by omega⟩ ?_
      have e1 : qy + (-1 : Int) = r := by omega
      have e2 : qx + (-1 : Int) = c := by omega
      rw [e1, e2]
      exact S3
    · exact smoothAt_gt h w g qy qx (-32768) S1 ((0 : Int), (1 : Int))
        (by simp [kernelOffsets]) ⟨by omega, by omega, by omega, by omega⟩
        (hring (qy + (0 : Int)) (qx + (1 : Int)) (by simp only [inGrid]; omega)
          (by simp only [inBlock]; omega))
  · exact smoothAt_gt h w g qy qx (-32768) S1 ((1 : Int), (0 : Int))
      (by simp [kernelOffsets]) ⟨by omega, by omega, by omega, by omega⟩
      (hring (qy + (1 : Int)) (qx + (0 : Int)) (by simp only [inGrid]; omega)
        (by simp only [inBlock]; omega))

theorem smoothFold_main (h w r c : Int) (f : Int → Int → Int)
    (hr1 : 1 ≤ r) (hr2 : r + 4 ≤ h) (hc1 : 1 ≤ c) (hc2 : c + 4 ≤ w)
    (hvalid : ∀ y x, inGrid h w y x → ¬ inBlock r c y x → -32767 ≤ f y x ∧ f y x ≤ 32767)
    (hmaskT : ∀ y x, inGrid h w y x → inBlock r c y x → voidMaskOf f y x = true)
    (hmaskF : ∀ y x, inGrid h w y x → ¬ inBlock r c y x → voidMaskOf f y x = false) :
    ∀ (l : List (Int × Int)), (∀ p ∈ l, inGrid h w p.1 p.2) → ∀ g, SmoothInv h w r c f g →
      SmoothInv h w r c f (l.foldl (smoothStepQ h w (voidMaskOf f)) g) ∧
      (∀ y x, inGrid h w y x → inBlock r c y x → ((y, x) ∈ l ∨ (-32768 : ℚ) < g y x) →
        (-32768 : ℚ) < l.foldl (smoothStepQ h w (voidMaskOf f)) g y x) := by
  intro l
  induction l with
  | nil =>
    intro _ g hinv
    refine ⟨hinv, ?_⟩
    intro y x _ _ hyp
    rcases hyp with hm | hgt
    · simp at hm
    · exact hgt
  | cons p t ih =>
    intro hl g hinv
    have hp := hl p (List.mem_cons_self p t)
    rw [List.foldl_cons]
    by_cases hmask : voidMaskOf f p.1 p.2 = true
    · have hpb : inBlock r c p.1 p.2 := by
        by_contra hnb
        rw [hmaskF p.1 p.2 hp hnb] at hmask
        simp at hmask
      have hg1 : smoothStepQ h w (voidMaskOf f) g p =
          update2 g p.1 p.2 (smoothAt h w g p.1 p.2) := by
        unfold smoothStepQ
        rw [if_pos hmask]
      have hvgt : (-32768 : ℚ) < smoothAt h w g p.1 p.2 :=
        smoothAt_block_strict h w r c f hr1 hr2 hc1 hc2 hvalid g hinv p.1 p.2 hp hpb
      set v := smoothAt h w g p.1 p.2 with hvdef
      have hinv1 : SmoothInv h w r c f (update2 g p.1 p.2 v) := by
        obtain ⟨S1, S2, S3⟩ := hinv
        refine ⟨?_, ?_, ?_⟩
        · intro a b hab
          by_cases he : a = p.1 ∧ b = p.2
          · obtain ⟨rfl, rfl⟩ := he
            rw [update2_read_same]
            exact le_of_lt hvgt
          · rw [update2_read_ne _ _ _ _ _ _ he]
            exact S1 a b hab
        · intro a b hab hnb
          have hne : ¬(a = p.1 ∧ b = p.2) := by
            rintro ⟨rfl, rfl⟩
            exact hnb hpb
          rw [update2_read_ne _ _ _ _ _ _ hne]
          exact S2 a b hab hnb
        · by_cases he : r = p.1 ∧ c = p.2
          · simp only [update2]
            rw [if_pos he]
            exact hvgt
          · simp only [update2]
            rw [if_neg he]
            exact S3
      rw [hg1]
      have iht := ih (fun q hq => hl q (List.mem_cons_of_mem p hq)) (update2 g p.1 p.2 v) hinv1
      refine ⟨iht.1, ?_⟩
      intro y x hgyx hbyx hyp
      apply iht.2 y x hgyx hbyx
      rcases hyp with hm | hgt
      · rcases List.mem_cons.mp hm with heq | hmt
        · right
          obtain ⟨h1, h2⟩ := Prod.ext_iff.mp heq
          subst h1
          subst h2
          rw [update2_read_same]
          exact hvgt
        · left
          exact hmt
      · right
        by_cases he : y = p.1 ∧ x = p.2
        · obtain ⟨rfl, rfl⟩ := he
          rw [update2_read_same]
          exact hvgt
        · rw [update2_read_ne _ _ _ _ _ _ he]
          exact hgt
    · have hg1 : smoothStepQ h w (voidMaskOf f) g p = g := by
        unfold smoothStepQ
        rw [if_neg hmask]
      rw [hg1]
      have iht := ih (fun q hq => hl q (List.mem_cons_of_mem p hq)) g hinv
      refine ⟨iht.1, ?_⟩
      intro y x hgyx hbyx hyp
      apply iht.2 y x hgyx hbyx
      rcases hyp with hm | hgt
      · rcases List.mem_cons.mp hm with heq | hmt
        · exfalso
          apply hmask
          obtain ⟨h1, h2⟩ := Prod.ext_iff.mp heq
          rw [← h1, ← h2]
          exact hmaskT y x hgyx hbyx
        · left
          exact hmt
      · right
        exact hgt

/-- C2: for every buffer whose nodata pixels form a single isolated 3×3
void block (all sixteen pixels bordering the block exist and are valid),
the Void Filler — `_simple_void_fill` with its 100-iteration cap followed
by `_smooth_filled_regions` — returns a buffer with zero residual voids:
no in-range pixel equals the sentinel -32768. -/
theorem void_filler_resolves_isolated_block (h w r c : Int) (f : Int → Int → Int)
    (hr1 : 1 ≤ r) (hr2 : r + 4 ≤ h) (hc1 : 1 ≤ c) (hc2 : c + 4 ≤ w)
    (hblock : ∀ y x, inGrid h w y x → inBlock r c y x → f y x = SRTM_NODATA)
    (hvalid : ∀ y x, inGrid h w y x → ¬ inBlock r c y x → -32767 ≤ f y x ∧ f y x ≤ 32767) :
    ∀ y x, inGrid h w y x → (fillVoidsRun h w f).1 y x ≠ SRTM_NODATA := by
  intro y x hyx
  have hmaskT : ∀ a b, inGrid h w a b → inBlock r c a b → voidMaskOf f a b = true := by
    intro a b h1 h2
    simp [voidMaskOf, hblock a b h1 h2]
  have hmaskF : ∀ a b, inGrid h w a b → ¬ inBlock r c a b → voidMaskOf f a b = false := by
    intro a b h1 h2
    have h3 := (hvalid a b h1 h2).1
    simp only [voidMaskOf, SRTM_NODATA]
    exact decide_eq_false (by omega)
  have hrc_grid : inGrid h w r c := by simp only [inGrid]; omega
  have hrc_block : inBlock r c r c := by simp only [inBlock]; omega
  have hmem : (r, c) ∈ allCoords h w := mem_allCoords.mpr hrc_grid
  have hn : countVoids h w (voidMaskOf f) ≠ 0 := by
    unfold countVoids
    have hmf : (r, c) ∈ (allCoords h w).filter (fun p => voidMaskOf f p.1 p.2) :=
      List.mem_filter.mpr ⟨hmem, hmaskT r c hrc_grid hrc_block⟩
    intro h0
    rw [List.length_eq_zero] at h0
    rw [h0] at hmf
    simp at hmf
  have hrun : (fillVoidsRun h w f).1 =
      smoothFilledRegions h w (simpleVoidFill h w f (voidMaskOf f)) (voidMaskOf f) := by
    simp only [fillVoidsRun]
    rw [if_neg hn]
  rw [hrun]
  obtain ⟨O1, O2, O3⟩ := simpleVoidFill_facts h w r c f hr1 hr2 hc1 hc2 hblock hvalid
  have hinv0 : SmoothInv h w r c f
      (fun a b => ((simpleVoidFill h w f (voidMaskOf f) a b : Int) : ℚ)) := by
    refine ⟨?_, ?_, ?_⟩
    · intro a b hab
      dsimp only
      exact_mod_cast O1 a b hab
    · intro a b hab hnb
      dsimp only
      exact congrArg _ (O2 a b hab hnb)
    · dsimp only
      exact_mod_cast (by omega : (-32768 : Int) < simpleVoidFill h w f (voidMaskOf f) r c)
  have hfold := smoothFold_main h w r c f hr1 hr2 hc1 hc2 hvalid hmaskT hmaskF
    (allCoords h w)
    (fun q hq => by
      have hq2 : (q.1, q.2) ∈ allCoords h w := by rwa [Prod.mk.eta]
      exact mem_allCoords.mp hq2)
    (fun a b => ((simpleVoidFill h w f (voidMaskOf f) a b : Int) : ℚ)) hinv0
  show truncQ ((allCoords h w).foldl (smoothStepQ h w (voidMaskOf f))
    (fun a b => ((simpleVoidFill h w f (voidMaskOf f) a b : Int) : ℚ)) y x) ≠ SRTM_NODATA
  by_cases hb : inBlock r c y x
  · exact truncQ_ne_sentinel (hfold.2 y x hyx hb (Or.inl (mem_allCoords.mpr hyx)))
  · rw [hfold.1.2.1 y x hyx hb, truncQ_intCast]
    have h3 := (hvalid y x hyx hb).1
    simp only [SRTM_NODATA]
    omega

theorem void_filler_resolves_isolated_block_witness :
    (fillVoidsRun 5 5 c2Grid).1 2 2 ≠ SRTM_NODATA :=
  void_filler_resolves_isolated_block 5 5 1 1 c2Grid
    (by norm_num) (by norm_num) (by norm_num) (by norm_num)
    (fun y x _ hb => by
      have hbn : 1 ≤ y ∧ y < 4 ∧ 1 ≤ x ∧ x < 4 := by simpa only [inBlock] using hb
      simp only [c2Grid]
      rw [if_pos (by omega)])
    (fun y x _ hnb => by
      have hbn : ¬(1 ≤ y ∧ y < 1 + 3 ∧ 1 ≤ x ∧ x < 1 + 3) := fun hc => hnb (by
        simp only [inBlock]
        omega)
      simp only [c2Grid]
      rw [if_neg (by omega)]
      norm_num [SRTM_NODATA])
    2 2 (by simp only [inGrid]; norm_num)
